import Mathlib

/-
Shallow embedding of the sequence-analysis kernel of `src/designer_dna/_oligos.pyx`
(Cython).  A nucleotide sequence is a list of byte values (`List Nat`, each entry
the code point of one symbol).  The mutable C buffers produced by `str_to_view`
are modelled as index-to-byte functions `Nat → Nat`; a buffer built from a list
reads list entries in range and (unspecified) memory modelled as the byte 0 out
of range.  Safety claims about which indices a routine touches are settled with
separate, explicitly computed read traces, so the out-of-range default never
decides a bounds question.  `Py_ssize_t` values that can go negative (the
`left` cursor of the palindrome scan, the `n` argument of `nrepeats`) are `Int`;
loop counters that stay non-negative are `Nat`.  `while` loops are translated
fuel-recursively with fuel provably larger than the iteration count.
-/

namespace DesignerDna

/-- Read a byte from the buffer built over list `s`: list entry in range,
unspecified memory (modelled as byte 0) out of range. -/
def readB (s : List Nat) (i : Nat) : Nat := s.getD i 0

/-- Write one cell of a buffer. -/
def bset (f : Nat → Nat) (i v : Nat) : Nat → Nat := fun j => if j = i then v else f j

/-- `to_str`: the first `L` bytes of a buffer, as a list. -/
def bufToList (f : Nat → Nat) (L : Nat) : List Nat := (List.range L).map f

/-- Python slice `s[a : b]` for a non-negative stop index (negative `a` cannot
reach this model; `Int.toNat` clamps it like the proofs show never happens). -/
def pySlice (s : List Nat) (a : Int) (b : Nat) : List Nat := (s.take b).drop a.toNat

/-- Modelled from the spec: the 256-entry DNA translation table lives in
`oligos.h`, which is not part of the sources; per spec section 4.1 it maps
A↔T and C↔G and every other byte (including N) to itself.  Bytes are ASCII:
A=65, C=67, G=71, T=84. -/
def DNA : Nat → Nat := fun b =>
  if b = 65 then 84 else if b = 84 then 65 else
  if b = 67 then 71 else if b = 71 then 67 else b

/-- Modelled from the spec: the RNA translation table of `oligos.h` maps
A↔U and C↔G and every other byte to itself.  U=85.  One extra entry is pinned
by the source itself: the cpdef `complement` docstring example
`complement("ATGC", False) == "UACG"` forces T→A in the RNA table. -/
def RNA : Nat → Nat := fun b =>
  if b = 65 then 85 else if b = 85 then 65 else
  if b = 67 then 71 else if b = 71 then 67 else
  if b = 84 then 65 else b

/-- Table dispatch of `v_complement` / `v_reverse_complement`: DNA table when
`dna` is true, else RNA table. -/
def tableOf (dna : Bool) : Nat → Nat := if dna then DNA else RNA

/-- Loop body of `c_complement`: `for j in range(idx)` complements cells `j`
and `end = (length - 1) - j`. -/
def compLoop (table : Nat → Nat) (L : Nat) : Nat → Nat → (Nat → Nat) → Nat → Nat
  | 0, _, f => f
  | fuel + 1, j, f =>
      let f1 := bset f j (table (f j))
      let f2 := bset f1 (L - 1 - j) (table (f1 (L - 1 - j)))
      compLoop table L fuel (j + 1) f2

/-- `c_complement(sequence, length, table)`: two-ended in-place complement;
`idx = length // 2` pair iterations, then the middle cell alone when the
length is odd. -/
def c_complement (f : Nat → Nat) (L : Nat) (table : Nat → Nat) : Nat → Nat :=
  let f' := compLoop table L (L / 2) 0 f
  if L % 2 = 1 then bset f' (L / 2) (table (f' (L / 2))) else f'

/-- cpdef `complement(sequence, dna)`: copy the string into a view, complement
in place, convert back. -/
def complement (s : List Nat) (dna : Bool) : List Nat :=
  bufToList (c_complement (readB s) s.length (tableOf dna)) s.length

/-- cpdef `reverse(sequence)`: Python `sequence[::-1]`. -/
def reverse (s : List Nat) : List Nat := s.reverse

/-- `while end_ptr > sequence` loop of `c_reverse_complement`: cursors `i`
(front) and `j` (back) complement-and-swap the two end cells and move inward.
The loop runs `L / 2` times; any fuel at least that large gives the loop's
result. -/
def rcLoop (table : Nat → Nat) : Nat → Nat → Nat → (Nat → Nat) → Nat → Nat
  | 0, _, _, f => f
  | fuel + 1, i, j, f =>
      if i < j then
        rcLoop table fuel (i + 1) (j - 1) (bset (bset f i (table (f j))) j (table (f i)))
      else f

/-- `c_reverse_complement(sequence, length, table)`: fused inward pass; after
the `length // 2` swap steps the front cursor sits on the middle cell, which is
complemented alone when the length is odd. -/
def c_reverse_complement (f : Nat → Nat) (L : Nat) (table : Nat → Nat) : Nat → Nat :=
  let f' := rcLoop table L 0 (L - 1) f
  if L % 2 = 1 then bset f' (L / 2) (table (f' (L / 2))) else f'

/-- cpdef `reverse_complement(sequence, dna)`. -/
def reverse_complement (s : List Nat) (dna : Bool) : List Nat :=
  bufToList (c_reverse_complement (readB s) s.length (tableOf dna)) s.length

/-- Best-span state of `palindrome`: the `length`, `start`, `end` locals. -/
structure Span where
  len : Int
  start : Int
  stop : Nat

/-- `_center`'s `while (left > -1 and right < length)` loop with the two-sided
equality check; breaks on the first mismatch.  Each iteration increases
`right`, so fuel `L + 1` is never exhausted. -/
def centerLoop (seqf comf : Nat → Nat) (L : Nat) : Nat → Int → Nat → Int × Nat
  | 0, left, right => (left, right)
  | fuel + 1, left, right =>
      if left > -1 ∧ right < L then
        if seqf left.toNat ≠ comf right ∨ seqf right ≠ comf left.toNat then
          (left, right)
        else
          centerLoop seqf comf L fuel (left - 1) (right + 1)
      else (left, right)

/-- `_center(seq, comp, &left, &right, length)`: run the expansion loop, then
`left[0] += 1`; returns the final `(left, right)` pair. -/
def _center (seqf comf : Nat → Nat) (L : Nat) (left : Int) (right : Nat) : Int × Nat :=
  let p := centerLoop seqf comf L (L + 1) left right
  (p.1 + 1, p.2)

/-- `_update_bounds(left, right, &current, &length, &start, &end)`: recompute
`current = right - left` and replace the best span only on a strictly greater
length. -/
def _update_bounds (left : Int) (right : Nat) (b : Span) : Span :=
  let current : Int := (right : Int) - left
  if current > b.len then ⟨current, left, right⟩ else b

/-- One iteration `i` of the scan in `palindrome`: even-length center first,
then the odd-length center only when `seq[i] == com[i]` (the `continue`). -/
def palStep (seqf comf : Nat → Nat) (L : Nat) (b : Span) (i : Nat) : Span :=
  let p := _center seqf comf L (i : Int) (i + 1)
  let b1 := _update_bounds p.1 p.2 b
  if seqf i ≠ comf i then b1
  else
    let q := _center seqf comf L ((i : Int) - 1) (i + 1)
    _update_bounds q.1 q.2 b1

/-- The whole `for i in range(seq.size - 1)` scan starting from
`length = 0, start = 0, end = 0`. -/
def palindromeSpan (seqf comf : Nat → Nat) (L : Nat) : Span :=
  (List.range (L - 1)).foldl (palStep seqf comf L) ⟨0, 0, 0⟩

/-- The complemented copy `com` used by `palindrome` (a second view of the
input, complemented in place by `v_complement`). -/
def palComp (s : List Nat) (dna : Bool) : Nat → Nat :=
  c_complement (readB s) s.length (tableOf dna)

/-- The best span `palindrome(sequence, dna)` ends with. -/
def palindromeBounds (s : List Nat) (dna : Bool) : Span :=
  palindromeSpan (readB s) (palComp s dna) s.length

/-- cpdef `palindrome(sequence, dna)`: returns `sequence[start : end]`. -/
def palindrome (s : List Nat) (dna : Bool) : List Nat :=
  pySlice s (palindromeBounds s dna).start (palindromeBounds s dna).stop

/-- The spans `palindrome`'s scan hands to `_update_bounds` at center `i`, in
execution order: the even-length expansion, then the odd-length one when
`seq[i] == com[i]`. -/
def centers (seqf comf : Nat → Nat) (L i : Nat) : List (Int × Nat) :=
  _center seqf comf L (i : Int) (i + 1) ::
    (if seqf i = comf i then [_center seqf comf L ((i : Int) - 1) (i + 1)] else [])

/-- All spans handed to `_update_bounds` over the whole scan, in order. -/
def candidates (seqf comf : Nat → Nat) (L : Nat) : List (Int × Nat) :=
  (List.range (L - 1)).flatMap (centers seqf comf L)

/-- `candidates` instantiated the way `palindrome` runs the scan. -/
def palCandidates (s : List Nat) (dna : Bool) : List (Int × Nat) :=
  candidates (readB s) (palComp s dna) s.length

/-- `l` occurs as a contiguous substring of `s`. -/
def ContiguousIn (l s : List Nat) : Prop := ∃ t u, t ++ l ++ u = s

/-- The canonical alphabet of spec section 8: A,C,G,T for DNA and A,C,G,U for
RNA. -/
def canonical (dna : Bool) : List Nat :=
  if dna then [65, 67, 71, 84] else [65, 67, 71, 85]

/-- `for j in range(1, view.size)` loop of cpdef `stretch`: count the current
run, track the longest, reset and re-read `view.ptr[j]` on mismatch. -/
def stretchLoop (s : List Nat) : Nat → Nat → Nat → Int → Int → Int
  | 0, _, _, _, longest => longest
  | fuel + 1, j, prev, current, longest =>
      if readB s j = prev then
        stretchLoop s fuel (j + 1) prev (current + 1)
          (if current + 1 > longest then current + 1 else longest)
      else
        stretchLoop s fuel (j + 1) (readB s j) 0 longest

/-- cpdef `stretch(sequence)`: `prev = view.ptr[0]` (read before any length
check), then the scan.  The loop runs `view.size - 1` times. -/
def stretch (s : List Nat) : Int :=
  stretchLoop s (s.length - 1) 1 (readB s 0) 0 0

/-- Indices of `view.ptr` read by the `stretch` loop: the comparison reads
`ptr[j]` every iteration, and the mismatch branch reads it a second time for
`prev = view.ptr[j]`. -/
def stretchLoopReads (s : List Nat) : Nat → Nat → Nat → List Nat
  | 0, _, _ => []
  | fuel + 1, j, prev =>
      if readB s j = prev then j :: stretchLoopReads s fuel (j + 1) prev
      else j :: j :: stretchLoopReads s fuel (j + 1) (readB s j)

/-- Every buffer index cpdef `stretch` reads, in order: index 0 for the
`prev` initialiser, then the loop's reads. -/
def stretchReads (s : List Nat) : List Nat :=
  0 :: stretchLoopReads s (s.length - 1) 1 (readB s 0)

/-- `for j in range(start, end)` loop of `_compare`, with `count` indexing `q`
from 0; returns `False` on the first mismatch (so later cells are not read). -/
def _compareLoop (p q : List Nat) : Nat → Nat → Nat → Bool
  | 0, _, _ => true
  | fuel + 1, j, count =>
      if readB p j ≠ readB q count then false
      else _compareLoop p q fuel (j + 1) (count + 1)

/-- `_compare(p, q, start, end)`. -/
def _compare (p q : List Nat) (start stop : Nat) : Bool :=
  _compareLoop p q (stop - start) start 0

/-- Indices of `p` read by `_compare`: one read per iteration, stopping after
the iteration that mismatches. -/
def _compareLoopReads (p q : List Nat) : Nat → Nat → Nat → List Nat
  | 0, _, _ => []
  | fuel + 1, j, count =>
      if readB p j ≠ readB q count then [j]
      else j :: _compareLoopReads p q fuel (j + 1) (count + 1)

/-- Read trace of `_compare(p, q, start, end)` over `p`. -/
def _compareReads (p q : List Nat) (start stop : Nat) : List Nat :=
  _compareLoopReads p q (stop - start) start 0

/-- `_assign(src, dest, start, end)`: the block `src[start : end]` copied into
`dest` from cell 0 on; modelled as the copied block. -/
def _assign (src : List Nat) (start stop : Nat) : List Nat :=
  (List.range (stop - start)).map (fun c => readB src (start + c))

/-- Indices of `src` read by `_assign(src, dest, start, end)`. -/
def _assignReads (start stop : Nat) : List Nat :=
  (List.range (stop - start)).map (fun c => start + c)

/-- `for j in range(1, v)` loop of `c_nrepeats` for one phase `k`: compare the
block at `j*t + k` with `previous`; on match bump `current` and the running
maximum, on mismatch reset `current` and adopt the block as `previous`. -/
def innerLoop (s : List Nat) (t k : Nat) : Nat → Nat → List Nat → Int → Int → Int
  | 0, _, _, _, maxv => maxv
  | fuel + 1, j, prev, current, maxv =>
      if _compare s prev (j * t + k) (j * t + k + t) then
        innerLoop s t k fuel (j + 1) prev (current + 1)
          (if current + 1 > maxv then current + 1 else maxv)
      else
        innerLoop s t k fuel (j + 1) (_assign s (j * t + k) (j * t + k + t)) 0 maxv

/-- Read trace of the phase loop over `sequence`: the `_compare` reads, plus
the `_assign` re-reads on the mismatch branch. -/
def innerLoopReads (s : List Nat) (t k : Nat) : Nat → Nat → List Nat → List Nat
  | 0, _, _ => []
  | fuel + 1, j, prev =>
      if _compare s prev (j * t + k) (j * t + k + t) then
        _compareReads s prev (j * t + k) (j * t + k + t) ++
          innerLoopReads s t k fuel (j + 1) prev
      else
        _compareReads s prev (j * t + k) (j * t + k + t) ++
          _assignReads (j * t + k) (j * t + k + t) ++
          innerLoopReads s t k fuel (j + 1) (_assign s (j * t + k) (j * t + k + t))

/-- `for k in range(t)` loop of `c_nrepeats`: per phase, seed `previous` with
`sequence[k : t + k]`, reset `current`, and run the phase loop; `max_val`
carries across phases. -/
def outerLoop (s : List Nat) (t v : Nat) : Nat → Nat → Int → Int
  | 0, _, maxv => maxv
  | fuel + 1, k, maxv =>
      outerLoop s t v fuel (k + 1)
        (innerLoop s t k (v - 1) 1 (_assign s k (t + k)) 0 maxv)

/-- Read trace of `c_nrepeats` over `sequence`. -/
def outerLoopReads (s : List Nat) (t v : Nat) : Nat → Nat → List Nat
  | 0, _ => []
  | fuel + 1, k =>
      _assignReads k (t + k) ++
        innerLoopReads s t k (v - 1) 1 (_assign s k (t + k)) ++
        outerLoopReads s t v fuel (k + 1)

/-- `c_nrepeats(sequence, length, n)` for a positive `n = t`:
`v = length // t` blocks per phase, phases `k in range(t)`. -/
def c_nrepeatsPos (s : List Nat) (t : Nat) : Int :=
  outerLoop s t (s.length / t) t 0 0

/-- Indices of `sequence` read by `c_nrepeats(sequence, length, t)`, `t ≥ 1`. -/
def c_nrepeatsReads (s : List Nat) (t : Nat) : List Nat :=
  outerLoopReads s t (s.length / t) t 0

/-- cpdef `nrepeats(sequence, n)`: `v = length // t` raises `ZeroDivisionError`
when `n = 0` (Cython floor division); when `n < 0` the phase loop
`for k in range(t)` runs zero times and `max_val = 0` is returned. -/
def nrepeats (s : List Nat) (n : Int) : Except String Int :=
  if n = 0 then .error "ZeroDivisionError"
  else if n < 0 then .ok 0
  else .ok (c_nrepeatsPos s n.toNat)

/-- The two-sided match invariant of `_center`'s expansion: every position `d`
strictly between the cursors pairs with `left + right - d` (the pair sum is
constant through the loop). -/
def MatchedI (seqf comf : Nat → Nat) (left : Int) (right : Nat) : Prop :=
  ∀ d : Int, left < d → d < (right : Nat) → seqf d.toNat = comf (left + right - d).toNat

/-- What a span handed to `_update_bounds` at pair-sum `S` satisfies: both
bounds are in range, the bounds sum to `S`, and the span matches its own
reverse complement position by position. -/
def GoodCand (seqf comf : Nat → Nat) (L : Nat) (S : Int) (c : Int × Nat) : Prop :=
  0 ≤ c.1 ∧ c.2 ≤ L ∧ c.1 + (c.2 : Int) = S ∧
    ∀ d : Int, c.1 ≤ d → d < (c.2 : Int) →
      seqf d.toNat = comf (c.1 + c.2 - 1 - d).toNat

/-- Invariant of the scan of `palindrome` after the centers `0, …, i - 1` have
been processed: the best span is well formed, matches its own reverse
complement, its bound sum is at most `2 * i`, and it is at least as long as
every span handed to `_update_bounds` so far — strictly the leftmost such span
among those of equal length. -/
def PalInv (seqf comf : Nat → Nat) (L i : Nat) (b : Span) : Prop :=
  0 ≤ b.start ∧ b.stop ≤ L ∧ b.len = (b.stop : Int) - b.start ∧ 0 ≤ b.len ∧
    (b.len = 0 → b.start = 0 ∧ b.stop = 0) ∧
    (0 < b.len → b.start + (b.stop : Int) ≤ 2 * (i : Int)) ∧
    (∀ d : Int, b.start ≤ d → d < (b.stop : Int) →
      seqf d.toNat = comf (b.start + b.stop - 1 - d).toNat) ∧
    (∀ c ∈ (List.range i).flatMap (centers seqf comf L),
      (c.2 : Int) - c.1 ≤ b.len ∧ ((c.2 : Int) - c.1 = b.len → b.start ≤ c.1))

end DesignerDna

namespace DesignerDna

lemma bset_apply (f : Nat → Nat) (i v j : Nat) :
    bset f i v j = if j = i then v else f j := rfl

lemma readB_eq_getElem (s : List Nat) (i : Nat) (h : i < s.length) : readB s i = s[i] :=
  List.getD_eq_getElem s 0 h

lemma readB_bufToList (f : Nat → Nat) (L m : Nat) :
    readB (bufToList f L) m = if m < L then f m else 0 := by
  unfold readB bufToList
  by_cases h : m < L
  · rw [if_pos h, List.getD_eq_getElem _ _ (by simpa using h)]
    simp
  · rw [if_neg h, List.getD_eq_default]
    simpa using h

lemma compLoop_apply (table : Nat → Nat) (L : Nat) :
    ∀ fuel j0 f m, 2 * (j0 + fuel) ≤ L →
      compLoop table L fuel j0 f m =
        if (j0 ≤ m ∧ m < j0 + fuel) ∨ (L - j0 - fuel ≤ m ∧ m < L - j0)
        then table (f m) else f m := by
  intro fuel
  induction fuel with
  | zero =>
      intro j0 f m h
      rw [compLoop, if_neg (by omega)]
  | succ fuel ih =>
      intro j0 f m h
      have hne : L - 1 - j0 ≠ j0 := by omega
      have e1 : bset f j0 (table (f j0)) (L - 1 - j0) = f (L - 1 - j0) := by
        simp [bset, hne]
      simp only [compLoop, e1]
      rw [ih (j0 + 1) _ m (by omega)]
      simp only [bset]
      split_ifs <;> first | rfl | (exfalso; omega) | simp_all

lemma c_complement_apply (f table : Nat → Nat) (L m : Nat) :
    c_complement f L table m = if m < L then table (f m) else f m := by
  simp only [c_complement]
  by_cases hodd : L % 2 = 1
  · rw [if_pos hodd]
    by_cases hm : m = L / 2
    · subst hm
      rw [bset_apply, if_pos rfl]
      rw [compLoop_apply table L (L / 2) 0 f (L / 2) (by omega)]
      rw [if_neg (by omega), if_pos (by omega)]
    · rw [bset_apply, if_neg hm]
      rw [compLoop_apply table L (L / 2) 0 f m (by omega)]
      by_cases h2 : m < L
      · rw [if_pos (by omega), if_pos h2]
      · rw [if_neg (by omega), if_neg h2]
  · rw [if_neg hodd]
    rw [compLoop_apply table L (L / 2) 0 f m (by omega)]
    by_cases h2 : m < L
    · rw [if_pos (by omega), if_pos h2]
    · rw [if_neg (by omega), if_neg h2]

lemma complement_eq_map (s : List Nat) (dna : Bool) :
    complement s dna = s.map (tableOf dna) := by
  unfold complement bufToList
  apply List.ext_getElem
  · simp
  · intro i h1 h2
    simp only [List.getElem_map, List.getElem_range]
    rw [c_complement_apply, if_pos (by simpa using h2)]
    rw [readB_eq_getElem s i (by simpa using h2)]

lemma rcLoop_apply (table : Nat → Nat) :
    ∀ fuel i j f m, (j + 1 - i) / 2 ≤ fuel →
      rcLoop table fuel i j f m =
        if (i ≤ m ∧ m < i + (j + 1 - i) / 2) ∨ (j + 1 - (j + 1 - i) / 2 ≤ m ∧ m ≤ j)
        then table (f (i + j - m)) else f m := by
  intro fuel
  induction fuel with
  | zero =>
      intro i j f m h
      rw [rcLoop, if_neg (by omega)]
  | succ fuel ih =>
      intro i j f m h
      rw [rcLoop]
      by_cases hij : i < j
      · rw [if_pos hij]
        rw [ih (i + 1) (j - 1) _ m (by omega)]
        have emir : i + 1 + (j - 1) - m = i + j - m := by omega
        rw [emir]
        simp only [bset]
        split_ifs <;> first | rfl | (exfalso; omega) | simp_all
      · rw [if_neg hij]
        split_ifs <;> first | rfl | (exfalso; omega)

lemma c_reverse_complement_apply (f table : Nat → Nat) (L m : Nat) :
    c_reverse_complement f L table m = if m < L then table (f (L - 1 - m)) else f m := by
  simp only [c_reverse_complement]
  have hhalf : (L - 1 + 1 - 0) / 2 = L / 2 := by omega
  by_cases hodd : L % 2 = 1
  · rw [if_pos hodd]
    by_cases hm : m = L / 2
    · subst hm
      rw [bset_apply, if_pos rfl]
      rw [rcLoop_apply table L 0 (L - 1) f (L / 2) (by omega)]
      rw [hhalf, if_neg (by omega)]
      have emid : 0 + (L - 1) - L / 2 = L - 1 - L / 2 := by omega
      rw [if_pos (by omega)]
      congr 2
      omega
    · rw [bset_apply, if_neg hm]
      rw [rcLoop_apply table L 0 (L - 1) f m (by omega)]
      rw [hhalf]
      have emir : 0 + (L - 1) - m = L - 1 - m := by omega
      by_cases h2 : m < L
      · rw [if_pos (by omega), if_pos h2, emir]
      · rw [if_neg (by omega), if_neg h2]
  · rw [if_neg hodd]
    rw [rcLoop_apply table L 0 (L - 1) f m (by omega)]
    rw [hhalf]
    have emir : 0 + (L - 1) - m = L - 1 - m := by omega
    by_cases h2 : m < L
    · rw [if_pos (by omega), if_pos h2, emir]
    · rw [if_neg (by omega), if_neg h2]

lemma reverse_complement_eq (s : List Nat) (dna : Bool) :
    reverse_complement s dna = (s.map (tableOf dna)).reverse := by
  unfold reverse_complement bufToList
  apply List.ext_getElem
  · simp
  · intro i h1 h2
    simp only [List.getElem_map, List.getElem_range]
    have hi : i < s.length := by simpa using h1
    rw [c_reverse_complement_apply, if_pos hi]
    rw [List.getElem_reverse]
    simp only [List.getElem_map]
    rw [readB_eq_getElem s (s.length - 1 - i) (by omega)]
    congr 2
    simp

/-- C3: the fused single-pass `reverse_complement(s, dna)` returns exactly
`reverse(complement(s, dna))`: the in-place complement-and-swap pass equals
the two-step composition of complement followed by reverse, for every
sequence and both translation tables. -/
theorem reverse_complement_eq_reverse_comp_complement (s : List Nat) (dna : Bool) :
    reverse_complement s dna = reverse (complement s dna) := by
  rw [reverse_complement_eq, complement_eq_map]
  rfl

/-- C9: on sequences drawn from the canonical alphabet (A,C,G,T for DNA;
A,C,G,U for RNA) `complement` is an involution:
`complement(complement(s, dna), dna) = s`. -/
theorem complement_involution_canonical (s : List Nat) (dna : Bool)
    (h : ∀ b ∈ s, b ∈ canonical dna) :
    complement (complement s dna) dna = s := by
  rw [complement_eq_map, complement_eq_map, List.map_map]
  conv_rhs => rw [← List.map_id s]
  apply List.map_congr_left
  intro b hb
  have hc := h b hb
  cases dna <;> simp [canonical] at hc <;>
    rcases hc with rfl | rfl | rfl | rfl <;> decide

/-- Witness for C9 at `s = "ATGC"`, DNA alphabet. -/
theorem complement_involution_canonical_witness :
    complement (complement [65, 84, 71, 67] true) true = [65, 84, 71, 67] :=
  complement_involution_canonical [65, 84, 71, 67] true (by decide)

/-- C1 is false on the code: on the sequence "AAAA" (length 4) with period
`n = 2`, phase `k = 1` compares the block `[3, 5)`, and `_compare` reads
`sequence[4]`, one past the end of the buffer (the `_assign` on the mismatch
branch then reads it again).  The floor division `v = length // t` bounds the
block count for phase 0 only; for phase offsets `k > length mod n` the last
compared block overruns the buffer. -/
theorem nrepeats_reads_out_of_bounds :
    4 ∈ c_nrepeatsReads [65, 65, 65, 65] 2 ∧ ([65, 65, 65, 65] : List Nat).length = 4 := by
  constructor
  · decide
  · rfl

/-- C4 is false on the code: `nrepeats` never validates `n`.  For `n = -1`
the phase loop `for k in range(t)` runs zero times and `max_val = 0` is
silently returned; only `n = 0` fails, and with `ZeroDivisionError` from
`v = length // t`, not an argument-validation error as the `.pyi` stub's
`Raises ValueError: if value of n is less than 1` promises. -/
theorem nrepeats_negative_silent :
    nrepeats [65, 65, 65, 65] (-1) = .ok 0 ∧
      nrepeats [65, 65, 65, 65] 0 = .error "ZeroDivisionError" := by
  constructor <;> rfl

/-- C10: `palindrome` can return an odd-length result.  On s = "NA" (bytes
[78, 65]) with the DNA table, N is its own complement, the odd-center
expansion at position 0 yields the span `[0, 1)`, and the result is the
single self-complementary symbol "N" — length 1, odd. -/
theorem palindrome_odd_length_example :
    palindrome [78, 65] true = [78] ∧ (palindrome [78, 65] true).length = 1 ∧
      tableOf true 78 = 78 := by
  refine ⟨by decide, by decide, by decide⟩

lemma stretchLoopReads_lt (s : List Nat) :
    ∀ fuel j prev i, i ∈ stretchLoopReads s fuel j prev → i < j + fuel := by
  intro fuel
  induction fuel with
  | zero =>
      intro j prev i h
      simp [stretchLoopReads] at h
  | succ fuel ih =>
      intro j prev i h
      unfold stretchLoopReads at h
      by_cases hc : readB s j = prev
      · rw [if_pos hc] at h
        rcases List.mem_cons.mp h with rfl | h2
        · omega
        · have := ih (j + 1) prev i h2
          omega
      · rw [if_neg hc] at h
        rcases List.mem_cons.mp h with rfl | h2
        · omega
        · rcases List.mem_cons.mp h2 with rfl | h3
          · omega
          · have := ih (j + 1) (readB s j) i h3
            omega

/-- C5 counterexample: on the empty sequence, `stretch` still reads buffer
index 0 (for `prev = view.ptr[0]`), and 0 is not an index of a zero-length
sequence — the claim's "every index read lies within [0, len(s))" fails. -/
theorem stretch_reads_oob_on_empty :
    0 ∈ stretchReads ([] : List Nat) ∧ ¬ (0 < ([] : List Nat).length) := by
  constructor
  · decide
  · decide

/-- C5 as amended: `stretch` returns the neutral 0 on empty and on
single-symbol input, and for non-empty input every index it reads lies within
`[0, len s)`; the one read the code performs outside that contract is the
unconditional read of buffer index 0, out of bounds only when the sequence is
empty (and the returned value is 0 there regardless of the byte read, since
the loop body never runs). -/
theorem stretch_safety_amended (s : List Nat) (c i : Nat)
    (hi : i ∈ stretchReads s) (hs : 1 ≤ s.length) :
    i < s.length ∧ stretch [] = 0 ∧ stretch [c] = 0 := by
  refine ⟨?_, rfl, rfl⟩
  unfold stretchReads at hi
  rcases List.mem_cons.mp hi with rfl | h2
  · omega
  · have := stretchLoopReads_lt s (s.length - 1) 1 (readB s 0) i h2
    omega

/-- Witness for the amended C5 at `s = "AA"`, `i = 0`, `c = "A"`. -/
theorem stretch_safety_amended_witness :
    0 < ([65, 65] : List Nat).length ∧ stretch [] = 0 ∧ stretch [65] = 0 :=
  stretch_safety_amended [65, 65] 65 0 (by decide) (by decide)

lemma _assign_single (s : List Nat) (j : Nat) : _assign s j (j + 1) = [readB s j] := by
  unfold _assign
  have h : j + 1 - j = 1 := by omega
  rw [h]
  rfl

lemma innerLoop_one (s : List Nat) :
    ∀ fuel j p current maxv,
      innerLoop s 1 0 fuel j [p] current maxv = stretchLoop s fuel j p current maxv := by
  intro fuel
  induction fuel with
  | zero =>
      intro j p current maxv
      rfl
  | succ fuel ih =>
      intro j p current maxv
      have hidx : j * 1 + 0 = j := by omega
      have hidx2 : j * 1 + 0 + 1 = j + 1 := by omega
      simp only [innerLoop, stretchLoop, hidx, hidx2]
      have hr : readB [p] 0 = p := rfl
      by_cases hjp : readB s j = p
      · have hcmp : _compare s [p] j (j + 1) = true := by
          unfold _compare
          have h1 : j + 1 - j = 1 := by omega
          rw [h1]
          simp only [_compareLoop, hr]
          simp [hjp]
        rw [hcmp, if_pos rfl, if_pos hjp]
        exact ih (j + 1) p (current + 1) _
      · have hcmp : _compare s [p] j (j + 1) = false := by
          unfold _compare
          have h1 : j + 1 - j = 1 := by omega
          rw [h1]
          simp only [_compareLoop, hr]
          simp [hjp]
        rw [hcmp, if_neg (by simp), if_neg hjp]
        rw [_assign_single]
        exact ih (j + 1) (readB s j) 0 maxv

/-- C6: for every sequence, `nrepeats(s, 1)` computes exactly `stretch(s)`:
with period 1 the phase loop runs once with `k = 0`, the block comparisons
degenerate to single-byte comparisons against `previous[0]`, and the two
state machines coincide step by step (both report extra repeats beyond the
first occurrence). -/
theorem nrepeats_one_eq_stretch (s : List Nat) : nrepeats s 1 = .ok (stretch s) := by
  have h1 : nrepeats s 1 = .ok (c_nrepeatsPos s 1) := rfl
  rw [h1]
  congr 1
  show outerLoop s 1 (s.length / 1) (0 + 1) 0 0 = stretch s
  rw [Nat.div_one]
  simp only [outerLoop]
  have ha : (1 : Nat) + 0 = 0 + 1 := rfl
  rw [ha, _assign_single]
  rw [innerLoop_one]
  rfl

lemma centerLoop_spec (seqf comf : Nat → Nat) (L : Nat) :
    ∀ fuel (left : Int) (right : Nat), -1 ≤ left →
      MatchedI seqf comf left right →
      -1 ≤ (centerLoop seqf comf L fuel left right).1 ∧
        (centerLoop seqf comf L fuel left right).1 ≤ left ∧
        right ≤ (centerLoop seqf comf L fuel left right).2 ∧
        (right ≤ L → (centerLoop seqf comf L fuel left right).2 ≤ L) ∧
        (centerLoop seqf comf L fuel left right).1 +
            ((centerLoop seqf comf L fuel left right).2 : Int) = left + (right : Int) ∧
        MatchedI seqf comf (centerLoop seqf comf L fuel left right).1
          (centerLoop seqf comf L fuel left right).2 := by
  intro fuel
  induction fuel with
  | zero =>
      intro left right h1 h2
      exact ⟨h1, le_refl _, le_refl _, fun h => h, rfl, h2⟩
  | succ fuel ih =>
      intro left right h1 h2
      simp only [centerLoop]
      by_cases hg : left > -1 ∧ right < L
      · rw [if_pos hg]
        by_cases hmis : seqf left.toNat ≠ comf right ∨ seqf right ≠ comf left.toNat
        · rw [if_pos hmis]
          exact ⟨h1, le_refl _, le_refl _, fun h => h, rfl, h2⟩
        · rw [if_neg hmis]
          push_neg at hmis
          obtain ⟨he1, he2⟩ := hmis
          have hm' : MatchedI seqf comf (left - 1) (right + 1) := by
            intro d hd1 hd2
            by_cases hdl : d = left
            · rw [hdl]
              have earg : (left - 1 + ((right + 1 : Nat) : Int) - left).toNat = right := by
                omega
              rw [earg]
              exact he1
            · by_cases hdr : d = (right : Int)
              · rw [hdr]
                have e1 : ((right : Int)).toNat = right := by omega
                have e2 : (left - 1 + ((right + 1 : Nat) : Int) - (right : Int)).toNat =
                    left.toNat := by omega
                rw [e1, e2]
                exact he2
              · have hd3 : left < d := by omega
                have hd4 : d < ((right : Nat) : Int) := by omega
                have hint := h2 d hd3 hd4
                have e3 : (left - 1 + ((right + 1 : Nat) : Int) - d).toNat =
                    (left + (right : Int) - d).toNat := by omega
                rw [e3]
                exact hint
          obtain ⟨a1, a2, a3, a4, a5, a6⟩ := ih (left - 1) (right + 1) (by omega) hm'
          refine ⟨a1, by omega, by omega, ?_, by push_cast at a5 ⊢; omega, a6⟩
          intro hrL
          exact a4 (by omega)
      · rw [if_neg hg]
        exact ⟨h1, le_refl _, le_refl _, fun h => h, rfl, h2⟩

lemma _center_fst (seqf comf : Nat → Nat) (L : Nat) (left : Int) (right : Nat) :
    (_center seqf comf L left right).1 =
      (centerLoop seqf comf L (L + 1) left right).1 + 1 := rfl

lemma _center_snd (seqf comf : Nat → Nat) (L : Nat) (left : Int) (right : Nat) :
    (_center seqf comf L left right).2 =
      (centerLoop seqf comf L (L + 1) left right).2 := rfl

lemma center_spec (seqf comf : Nat → Nat) (L : Nat) (left : Int) (right : Nat)
    (h1 : -1 ≤ left) (h2 : MatchedI seqf comf left right) (h3 : right ≤ L) :
    GoodCand seqf comf L (left + right + 1) (_center seqf comf L left right) := by
  obtain ⟨a1, a2, a3, a4, a5, a6⟩ := centerLoop_spec seqf comf L (L + 1) left right h1 h2
  unfold GoodCand
  rw [_center_fst, _center_snd]
  refine ⟨by omega, a4 h3, by omega, ?_⟩
  intro d hd1 hd2
  have hint := a6 d (by omega) (by omega)
  have e1 : ((centerLoop seqf comf L (L + 1) left right).1 +
        ((centerLoop seqf comf L (L + 1) left right).2 : Int) - d).toNat =
      ((centerLoop seqf comf L (L + 1) left right).1 + 1 +
        ((centerLoop seqf comf L (L + 1) left right).2 : Int) - 1 - d).toNat := by
    omega
  rw [e1] at hint
  exact hint

lemma Span_mk_len (a : Int) (b : Int) (c : Nat) : (Span.mk a b c).len = a := rfl

lemma Span_mk_start (a : Int) (b : Int) (c : Nat) : (Span.mk a b c).start = b := rfl

lemma Span_mk_stop (a : Int) (b : Int) (c : Nat) : (Span.mk a b c).stop = c := rfl

lemma update_bounds_cases (l : Int) (r : Nat) (b : Span) :
    (_update_bounds l r b = b ∧ (r : Int) - l ≤ b.len) ∨
      (_update_bounds l r b = ⟨(r : Int) - l, l, r⟩ ∧ b.len < (r : Int) - l) := by
  simp only [_update_bounds]
  by_cases h : (r : Int) - l > b.len
  · right
    exact ⟨if_pos h, h⟩
  · left
    exact ⟨if_neg h, by omega⟩

lemma update_preserves (seqf comf : Nat → Nat) (L : Nat) (S Sb : Int) (x : Span)
    (c : Int × Nat) (hSb : S ≤ Sb)
    (hx1 : 0 ≤ x.start) (hx2 : x.stop ≤ L) (hx3 : x.len = (x.stop : Int) - x.start)
    (hx0 : 0 ≤ x.len)
    (hx4 : x.len = 0 → x.start = 0 ∧ x.stop = 0)
    (hx5 : 0 < x.len → x.start + (x.stop : Int) < S ∨ x.start + (x.stop : Int) = S + 1)
    (hx6 : 0 < x.len → x.start + (x.stop : Int) ≤ Sb)
    (hx7 : ∀ d : Int, x.start ≤ d → d < (x.stop : Int) →
      seqf d.toNat = comf (x.start + x.stop - 1 - d).toNat)
    (hc : GoodCand seqf comf L S c) :
    0 ≤ (_update_bounds c.1 c.2 x).start ∧ (_update_bounds c.1 c.2 x).stop ≤ L ∧
      (_update_bounds c.1 c.2 x).len =
        ((_update_bounds c.1 c.2 x).stop : Int) - (_update_bounds c.1 c.2 x).start ∧
      ((_update_bounds c.1 c.2 x).len = 0 →
        (_update_bounds c.1 c.2 x).start = 0 ∧ (_update_bounds c.1 c.2 x).stop = 0) ∧
      (0 < (_update_bounds c.1 c.2 x).len →
        (_update_bounds c.1 c.2 x).start + ((_update_bounds c.1 c.2 x).stop : Int) ≤ Sb) ∧
      (∀ d : Int, (_update_bounds c.1 c.2 x).start ≤ d →
        d < ((_update_bounds c.1 c.2 x).stop : Int) →
        seqf d.toNat = comf ((_update_bounds c.1 c.2 x).start +
          (_update_bounds c.1 c.2 x).stop - 1 - d).toNat) ∧
      x.len ≤ (_update_bounds c.1 c.2 x).len ∧
      ((c.2 : Int) - c.1 ≤ (_update_bounds c.1 c.2 x).len) ∧
      (((c.2 : Int) - c.1 = (_update_bounds c.1 c.2 x).len) →
        (_update_bounds c.1 c.2 x).start ≤ c.1) ∧
      (_update_bounds c.1 c.2 x = x ∨
        ((_update_bounds c.1 c.2 x).start = c.1 ∧ (_update_bounds c.1 c.2 x).stop = c.2 ∧
          x.len < (_update_bounds c.1 c.2 x).len)) := by
  obtain ⟨hc1, hc2, hc3, hc4⟩ := hc
  rcases update_bounds_cases c.1 c.2 x with ⟨heq, hle⟩ | ⟨heq, hlt⟩
  · rw [heq]
    refine ⟨hx1, hx2, hx3, hx4, hx6, hx7, le_refl _, hle, ?_, Or.inl rfl⟩
    intro htie
    by_cases hz : x.len = 0
    · obtain ⟨hs0, _⟩ := hx4 hz
      omega
    · rcases hx5 (by omega) with h5 | h5 <;> omega
  · have e1 : (_update_bounds c.1 c.2 x).len = (c.2 : Int) - c.1 := by rw [heq]
    have e2 : (_update_bounds c.1 c.2 x).start = c.1 := by rw [heq]
    have e3 : (_update_bounds c.1 c.2 x).stop = c.2 := by rw [heq]
    rw [e1, e2, e3]
    refine ⟨hc1, hc2, rfl, by intro h0; omega, by intro h0; omega, hc4, by omega,
      le_refl _, fun _ => le_refl _, Or.inr ⟨rfl, rfl, by omega⟩⟩

lemma palStep_inv (seqf comf : Nat → Nat) (L i : Nat) (b : Span)
    (hb : PalInv seqf comf L i b) (hi : i + 1 < L) :
    PalInv seqf comf L (i + 1) (palStep seqf comf L b i) := by
  unfold PalInv at hb
  obtain ⟨hb1, hb2, hb3, hb0, hb4, hb5, hb6, hb7⟩ := hb
  unfold PalInv
  simp only [palStep]
  set E := _center seqf comf L (i : Int) (i + 1) with hE
  set O := _center seqf comf L ((i : Int) - 1) (i + 1) with hO
  have hgood_e : GoodCand seqf comf L (2 * (i : Int) + 2) E := by
    have hs : ((i : Int) + ((i + 1 : Nat) : Int) + 1) = 2 * (i : Int) + 2 := by
      push_cast
      omega
    rw [hE, ← hs]
    apply center_spec
    · omega
    · intro d hd1 hd2
      exact absurd hd2 (by omega)
    · omega
  have he3 : E.1 + (E.2 : Int) = 2 * (i : Int) + 2 := hgood_e.2.2.1
  have hu := update_preserves seqf comf L (2 * (i : Int) + 2) (2 * (i : Int) + 2) b E
    (le_refl _) hb1 hb2 hb3 hb0 hb4
    (fun h => Or.inl (by have := hb5 h; omega))
    (fun h => by have := hb5 h; omega) hb6 hgood_e
  obtain ⟨u1, u2, u3, u4, u5, u6, u7, u8, u9, u10⟩ := hu
  set B1 := _update_bounds E.1 E.2 b with hB1
  by_cases hg : seqf i = comf i
  · rw [if_neg (not_not_intro hg)]
    have hgood_o : GoodCand seqf comf L (2 * (i : Int) + 1) O := by
      have hs : (((i : Int) - 1) + ((i + 1 : Nat) : Int) + 1) = 2 * (i : Int) + 1 := by
        push_cast
        omega
      rw [hO, ← hs]
      apply center_spec
      · omega
      · intro d hd1 hd2
        have hdi : d = (i : Int) := by omega
        rw [hdi]
        have ea : ((i : Int)).toNat = i := by omega
        have eb : ((i : Int) - 1 + ((i + 1 : Nat) : Int) - (i : Int)).toNat = i := by omega
        rw [ea, eb]
        exact hg
      · omega
    have hx5odd : 0 < B1.len → B1.start + (B1.stop : Int) < 2 * (i : Int) + 1 ∨
        B1.start + (B1.stop : Int) = 2 * (i : Int) + 1 + 1 := by
      intro hpos
      rcases u10 with hEq1 | ⟨hs1, hs2, _⟩
      · left
        rw [hEq1] at hpos ⊢
        have := hb5 hpos
        omega
      · right
        rw [hs1, hs2]
        omega
    have hv := update_preserves seqf comf L (2 * (i : Int) + 1) (2 * (i : Int) + 2) B1 O
      (by omega) u1 u2 u3 (by omega) u4 hx5odd u5 u6 hgood_o
    obtain ⟨v1, v2, v3, v4, v5, v6, v7, v8, v9, v10⟩ := hv
    set B2 := _update_bounds O.1 O.2 B1 with hB2
    refine ⟨v1, v2, v3, by omega, v4, by intro h; have := v5 h; push_cast; omega, v6, ?_⟩
    intro c hcm
    rw [List.range_succ, List.flatMap_append] at hcm
    rcases List.mem_append.mp hcm with hold | hnew
    · obtain ⟨ho1', ho2'⟩ := hb7 c hold
      refine ⟨by omega, ?_⟩
      intro htie
      rcases v10 with hEq2 | ⟨_, _, hlt2⟩
      · rcases u10 with hEq1 | ⟨_, _, hlt1⟩
        · rw [hEq2, hEq1] at htie ⊢
          exact ho2' htie
        · rw [hEq2] at htie ⊢
          omega
      · omega
    · have hco : c = E ∨ c = O := by
        rw [hE, hO]
        simp only [centers, if_pos hg, List.flatMap_cons, List.flatMap_nil,
          List.append_nil] at hnew
        simpa using hnew
      rcases hco with rfl | rfl
      · refine ⟨by omega, ?_⟩
        intro htie
        rcases v10 with hEq2 | ⟨_, _, hlt2⟩
        · rw [hEq2] at htie ⊢
          exact u9 htie
        · omega
      · exact ⟨v8, v9⟩
  · rw [if_pos hg]
    refine ⟨u1, u2, u3, by omega, u4, by intro h; have := u5 h; push_cast; omega, u6, ?_⟩
    intro c hcm
    rw [List.range_succ, List.flatMap_append] at hcm
    rcases List.mem_append.mp hcm with hold | hnew
    · obtain ⟨ho1', ho2'⟩ := hb7 c hold
      refine ⟨by omega, ?_⟩
      intro htie
      rcases u10 with hEq1 | ⟨_, _, hlt1⟩
      · rw [hEq1] at htie ⊢
        exact ho2' htie
      · omega
    · have hce : c = E := by
        rw [hE]
        simp only [centers, if_neg hg, List.flatMap_cons, List.flatMap_nil,
          List.append_nil] at hnew
        simpa using hnew
      subst hce
      exact ⟨u8, u9⟩

lemma palindromeSpan_inv (seqf comf : Nat → Nat) (L : Nat) :
    ∀ n, n ≤ L - 1 →
      PalInv seqf comf L n ((List.range n).foldl (palStep seqf comf L) ⟨0, 0, 0⟩) := by
  intro n
  induction n with
  | zero =>
      intro _
      unfold PalInv
      rw [List.range_zero, List.foldl_nil]
      refine ⟨le_refl _, Nat.zero_le _, by simp [Span_mk_len, Span_mk_start, Span_mk_stop],
        le_refl _, fun _ => ⟨rfl, rfl⟩, ?_, ?_, ?_⟩
      · intro h
        rw [Span_mk_len] at h
        exact absurd h (lt_irrefl 0)
      · intro d hd1 hd2
        rw [Span_mk_start] at hd1
        rw [Span_mk_stop] at hd2
        exact absurd hd2 (by omega)
      · intro c hc0
        simp at hc0
  | succ n ih =>
      intro hn
      rw [List.range_succ, List.foldl_append, List.foldl_cons, List.foldl_nil]
      exact palStep_inv seqf comf L n _ (ih (by omega)) (by omega)

lemma palindromeBounds_eq_fold (s : List Nat) (dna : Bool) :
    palindromeBounds s dna =
      (List.range (s.length - 1)).foldl
        (palStep (readB s) (palComp s dna) s.length) ⟨0, 0, 0⟩ := rfl

lemma palindromeBounds_inv (s : List Nat) (dna : Bool) :
    PalInv (readB s) (palComp s dna) s.length (s.length - 1) (palindromeBounds s dna) := by
  rw [palindromeBounds_eq_fold]
  exact palindromeSpan_inv (readB s) (palComp s dna) s.length (s.length - 1) (le_refl _)

lemma palComp_eq_complement (s : List Nat) (dna : Bool) (m : Nat) (hm : m < s.length) :
    palComp s dna m = readB (complement s dna) m := by
  unfold palComp complement
  rw [readB_bufToList, if_pos hm]

/-- C2: the span `[start, end)` that `palindrome(s, dna)` returns satisfies,
for every offset `d` with `start + d < end`,
`s[start + d] = complement(s, dna)[end - 1 - d]`: the returned substring
equals the reverse complement of itself. -/
theorem palindrome_span_matched (s : List Nat) (dna : Bool) (d : Nat)
    (hd : (palindromeBounds s dna).start.toNat + d < (palindromeBounds s dna).stop) :
    readB s ((palindromeBounds s dna).start.toNat + d) =
      readB (complement s dna) ((palindromeBounds s dna).stop - 1 - d) := by
  have hinv := palindromeBounds_inv s dna
  unfold PalInv at hinv
  obtain ⟨h1, h2, h3, h0, h4, h5, h6, h7⟩ := hinv
  have hx := h6 ((palindromeBounds s dna).start + (d : Int)) (by omega) (by omega)
  have e1 : ((palindromeBounds s dna).start + (d : Int)).toNat =
      (palindromeBounds s dna).start.toNat + d := by omega
  have e2 : ((palindromeBounds s dna).start + (palindromeBounds s dna).stop - 1 -
      ((palindromeBounds s dna).start + (d : Int))).toNat =
      (palindromeBounds s dna).stop - 1 - d := by omega
  rw [e1, e2] at hx
  rw [hx]
  exact palComp_eq_complement s dna _ (by omega)

/-- Witness for C2 at `s = "ATAT"` (DNA), offset `d = 0`. -/
theorem palindrome_span_matched_witness :
    readB [65, 84, 65, 84] ((palindromeBounds [65, 84, 65, 84] true).start.toNat + 0) =
      readB (complement [65, 84, 65, 84] true)
        ((palindromeBounds [65, 84, 65, 84] true).stop - 1 - 0) :=
  palindrome_span_matched [65, 84, 65, 84] true 0 (by decide)

/-- C7: every span the scan of `palindrome(s, dna)` hands to `_update_bounds`
is at most as long as the returned best span, and a span of exactly the best
length has a start index at least the returned start: the best is replaced
only on a strictly greater length, so the leftmost span among equal-length
candidates is retained. -/
theorem palindrome_leftmost_tie (s : List Nat) (dna : Bool) (c : Int × Nat)
    (hc : c ∈ palCandidates s dna) :
    (c.2 : Int) - c.1 ≤
        ((palindromeBounds s dna).stop : Int) - (palindromeBounds s dna).start ∧
      ((c.2 : Int) - c.1 =
          ((palindromeBounds s dna).stop : Int) - (palindromeBounds s dna).start →
        (palindromeBounds s dna).start ≤ c.1) := by
  have hinv := palindromeBounds_inv s dna
  unfold PalInv at hinv
  obtain ⟨h1, h2, h3, h0, h4, h5, h6, h7⟩ := hinv
  rw [← h3]
  exact h7 c hc

/-- Witness for C7 at `s = "AT"` (DNA) and the candidate span `(0, 2)`. -/
theorem palindrome_leftmost_tie_witness :
    (((0 : Int), (2 : Nat)).2 : Int) - ((0 : Int), (2 : Nat)).1 ≤
        ((palindromeBounds [65, 84] true).stop : Int) -
          (palindromeBounds [65, 84] true).start ∧
      ((((0 : Int), (2 : Nat)).2 : Int) - ((0 : Int), (2 : Nat)).1 =
          ((palindromeBounds [65, 84] true).stop : Int) -
            (palindromeBounds [65, 84] true).start →
        (palindromeBounds [65, 84] true).start ≤ ((0 : Int), (2 : Nat)).1) :=
  palindrome_leftmost_tie [65, 84] true ((0 : Int), (2 : Nat)) (by decide)

/-- C8: `palindrome(s, dna)` returns a contiguous substring of the original
sequence (the slice `s[start : end]` at the best span), and returns the empty
result whenever `len(s) < 2` (no even-length center exists: the scan
`for i in range(len - 1)` runs zero times). -/
theorem palindrome_substring_and_empty (s : List Nat) (dna : Bool) :
    ContiguousIn (palindrome s dna) s ∧ (s.length < 2 → palindrome s dna = []) := by
  constructor
  · refine ⟨(s.take (palindromeBounds s dna).stop).take (palindromeBounds s dna).start.toNat,
      s.drop (palindromeBounds s dna).stop, ?_⟩
    unfold palindrome pySlice
    rw [List.take_append_drop, List.take_append_drop]
  · intro h
    have h0 : s.length - 1 = 0 := by omega
    unfold palindrome palindromeBounds palindromeSpan pySlice
    rw [h0, List.range_zero, List.foldl_nil]
    simp [Span_mk_start, Span_mk_stop]

/-- Witness for C8 at the single-symbol sequence `s = "A"`. -/
theorem palindrome_substring_and_empty_witness :
    palindrome [65] true = [] :=
  (palindrome_substring_and_empty [65] true).2 (by decide)

end DesignerDna
